import Mathlib

/-!
Verification of the GapBuffer text model of MarkdownAssistant
(src/src/gapbuffer/gap_buffer.cpp, class declaration in the manifest).

The C++ state is embedded shallowly:
  * `std::vector<char> buffer_`  becomes `List Char` (the capacity is the
    list length; `std::vector<char>::resize` value-initialises new cells
    with the zero byte, modelled by `listResize`);
  * `size_t gapStart_`, `size_t gapEnd_` become `Nat`;
  * `std::vector<Patch> pendingPatches_` becomes `List Patch`, kept in the
    same order (the vector's `back()` is the list's last element);
  * `Patch` keeps `start`, `removedLength`, `insertedText`; the
    `std::chrono::steady_clock` timestamp carries no program-visible data
    beyond being refreshed, so it is omitted from the embedding;
  * `memcpy` / `memmove` become `writeAt` (all calls in the source write
    in bounds, where `writeAt` coincides with the byte-wise copy).
Every member function of the source is translated one to one below.
-/

namespace MarkdownAssistant

/-- The zero byte used by `std::vector<char>` value-initialisation. -/
def nulByte : Char := Char.ofNat 0

/-- `Patch` from gap_buffer.h: one recorded edit (timestamp omitted, see
module comment). -/
structure Patch where
  start : Nat
  removedLength : Nat
  insertedText : List Char
  deriving Repr, DecidableEq

/-- The four data members of `GapBuffer`. -/
structure GapBuffer where
  buffer_ : List Char
  gapStart_ : Nat
  gapEnd_ : Nat
  pendingPatches_ : List Patch
  deriving Repr, DecidableEq

/-- Read `len` bytes starting at `pos` (a `memcpy`/`memmove` source range). -/
def readAt (l : List Char) (pos len : Nat) : List Char :=
  (l.drop pos).take len

/-- Overwrite the bytes at `[pos, pos + src.length)` with `src`
(a `memcpy`/`memmove` destination range). -/
def writeAt (l : List Char) (pos : Nat) (src : List Char) : List Char :=
  l.take pos ++ src ++ l.drop (pos + src.length)

/-- `std::vector<char>::resize(n)`: keep the first `n` bytes, pad new
cells with the zero byte. -/
def listResize (l : List Char) (n : Nat) : List Char :=
  l.take n ++ List.replicate (n - l.length) nulByte

namespace GapBuffer

def kDefaultCapacity : Nat := 4096
def kMinGapSize : Nat := 256

/-- `GapBuffer::GapBuffer(size_t initialCapacity)`: zero-initialised
vector of the given capacity, gap covering everything. -/
def mkCap (initialCapacity : Nat) : GapBuffer :=
  { buffer_ := List.replicate initialCapacity nulByte
    gapStart_ := 0
    gapEnd_ := initialCapacity
    pendingPatches_ := [] }

/-- `GapBuffer::GapBuffer()`: delegates to the capacity constructor. -/
def mkDefault : GapBuffer := mkCap kDefaultCapacity

/-- `GapBuffer::GapBuffer(const GapBuffer&)` / copy assignment: value copy. -/
def copy (b : GapBuffer) : GapBuffer := b

/-- The state the source of a move is left in
(`GapBuffer::GapBuffer(GapBuffer&&)`, lines 45-52): moved-from vectors are
empty and `gapStart_ = gapEnd_ = 0`. -/
def movedFromState : GapBuffer :=
  { buffer_ := [], gapStart_ := 0, gapEnd_ := 0, pendingPatches_ := [] }

/-- `GapBuffer::length()`. -/
def length (b : GapBuffer) : Nat :=
  b.buffer_.length - (b.gapEnd_ - b.gapStart_)

/-- `GapBuffer::empty()`. -/
def isEmpty (b : GapBuffer) : Bool :=
  b.length = 0

/-- `GapBuffer::getText()`: text before the gap, then text after the gap. -/
def getText (b : GapBuffer) : List Char :=
  b.buffer_.take b.gapStart_ ++ b.buffer_.drop b.gapEnd_

/-- `GapBuffer::getText(size_t start, size_t len)` (the range overload). -/
def getTextRange (b : GapBuffer) (start len : Nat) : List Char :=
  let textLen := b.length
  if start ≥ textLen then
    []
  else
    let len := min len (textLen - start)
    if len = 0 then
      []
    else
      let beforeGapLen := b.gapStart_
      if start < beforeGapLen then
        let endBeforeGap := min (start + len) beforeGapLen
        let r1 := readAt b.buffer_ start (endBeforeGap - start)
        if start + len > beforeGapLen then
          r1 ++ readAt b.buffer_ b.gapEnd_ ((start + len) - beforeGapLen)
        else
          r1
      else
        readAt b.buffer_ (b.gapEnd_ + (start - beforeGapLen)) len

/-- `GapBuffer::loadFromString`. -/
def loadFromString (b : GapBuffer) (text : List Char) : GapBuffer :=
  let newCapacity := max (text.length + kMinGapSize) kDefaultCapacity
  let resized := listResize b.buffer_ newCapacity
  { buffer_ := writeAt resized 0 text
    gapStart_ := text.length
    gapEnd_ := newCapacity
    pendingPatches_ := [] }

/-- `GapBuffer::clear`. -/
def clear (b : GapBuffer) : GapBuffer :=
  { b with gapStart_ := 0, gapEnd_ := b.buffer_.length, pendingPatches_ := [] }

/-- `GapBuffer::moveGapTo`. -/
def moveGapTo (b : GapBuffer) (position : Nat) : GapBuffer :=
  if position = b.gapStart_ then
    b
  else
    let gapSize := b.gapEnd_ - b.gapStart_
    if position < b.gapStart_ then
      let shiftSize := b.gapStart_ - position
      { b with
        buffer_ := writeAt b.buffer_ (b.gapEnd_ - shiftSize)
                     (readAt b.buffer_ position shiftSize)
        gapStart_ := position
        gapEnd_ := position + gapSize }
    else
      let shiftSize := position - b.gapStart_
      { b with
        buffer_ := writeAt b.buffer_ b.gapStart_
                     (readAt b.buffer_ b.gapEnd_ shiftSize)
        gapStart_ := position
        gapEnd_ := position + gapSize }

/-- `GapBuffer::grow`. -/
def grow (b : GapBuffer) (minCapacity : Nat) : GapBuffer :=
  let oldCapacity := b.buffer_.length
  let textAfterGap := oldCapacity - b.gapEnd_
  let resized := listResize b.buffer_ minCapacity
  { b with
    buffer_ :=
      if textAfterGap > 0 then
        writeAt resized (minCapacity - textAfterGap)
          (readAt resized b.gapEnd_ textAfterGap)
      else
        resized
    gapEnd_ := minCapacity - textAfterGap }

/-- `GapBuffer::ensureGapCapacity`. -/
def ensureGapCapacity (b : GapBuffer) (requiredSize : Nat) : GapBuffer :=
  let gapSize := b.gapEnd_ - b.gapStart_
  if gapSize ≥ requiredSize then
    b
  else
    let currentCapacity := b.buffer_.length
    let needed := b.length + requiredSize + kMinGapSize
    b.grow (max (currentCapacity * 2) needed)

/-- `GapBuffer::recordPatch`: coalescing against the most recent pending
patch, else append a new patch. -/
def recordPatch (ps : List Patch) (start removedLength : Nat)
    (inserted : List Char) : List Patch :=
  match ps.getLast? with
  | some last =>
    if removedLength = 0 ∧ last.removedLength = 0 ∧
        start = last.start + last.insertedText.length then
      ps.dropLast ++ [{ last with insertedText := last.insertedText ++ inserted }]
    else if inserted = [] ∧ last.insertedText = [] ∧
        start + removedLength = last.start then
      ps.dropLast ++
        [{ last with start := start, removedLength := last.removedLength + removedLength }]
    else
      ps ++ [⟨start, removedLength, inserted⟩]
  | none => ps ++ [⟨start, removedLength, inserted⟩]

/-- `GapBuffer::insert`. -/
def insert (b : GapBuffer) (offset : Nat) (text : List Char) : GapBuffer :=
  if text = [] then
    b
  else
    let offset := min offset b.length
    let b1 := b.ensureGapCapacity text.length
    let b2 := b1.moveGapTo offset
    let b3 := { b2 with
                buffer_ := writeAt b2.buffer_ b2.gapStart_ text
                gapStart_ := b2.gapStart_ + text.length }
    { b3 with pendingPatches_ := recordPatch b3.pendingPatches_ offset 0 text }

/-- `GapBuffer::erase`.  (The erased text is captured by the source only to
serve higher layers; it does not influence the resulting state.) -/
def erase (b : GapBuffer) (offset len : Nat) : GapBuffer :=
  let textLen := b.length
  if offset ≥ textLen ∨ len = 0 then
    b
  else
    let len := min len (textLen - offset)
    let b1 := b.moveGapTo offset
    let b2 := { b1 with gapEnd_ := b1.gapEnd_ + len }
    { b2 with pendingPatches_ := recordPatch b2.pendingPatches_ offset len [] }

/-- `GapBuffer::lineFromOffset`: count line feeds strictly before the
clamped offset, in the pre-gap then the post-gap region. -/
def lineFromOffset (b : GapBuffer) (offset : Nat) : Nat :=
  let off := min offset b.length
  let beforeGapLen := min off b.gapStart_
  let line := (b.buffer_.take beforeGapLen).count '\n'
  if off > b.gapStart_ then
    line + (readAt b.buffer_ b.gapEnd_ (off - b.gapStart_)).count '\n'
  else
    line

/-- The scanning loop of `GapBuffer::offsetFromLine` over one region:
while `currentLine < target`, consume one byte, counting line feeds. -/
def scanLines : List Char → Nat → Nat → Nat → Nat × Nat
  | [], currentLine, offset, _ => (currentLine, offset)
  | c :: rest, currentLine, offset, target =>
    if currentLine < target then
      scanLines rest (if c = '\n' then currentLine + 1 else currentLine)
        (offset + 1) target
    else
      (currentLine, offset)

/-- `GapBuffer::offsetFromLine`. -/
def offsetFromLine (b : GapBuffer) (line column : Nat) : Nat :=
  if line = 0 ∧ column = 0 then
    0
  else
    let p1 := scanLines (b.buffer_.take b.gapStart_) 0 0 line
    let p2 := if p1.1 < line then
        scanLines (b.buffer_.drop b.gapEnd_) p1.1 p1.2 line
      else p1
    min (p2.2 + column) b.length

/-- `GapBuffer::lineCount`. -/
def lineCount (b : GapBuffer) : Nat :=
  if b.length = 0 then
    0
  else
    1 + (b.buffer_.take b.gapStart_).count '\n' +
      (b.buffer_.drop b.gapEnd_).count '\n'

/-- `GapBuffer::flushPatches`: the pending list (in order) and the buffer
with the list cleared. -/
def flushPatches (b : GapBuffer) : List Patch × GapBuffer :=
  (b.pendingPatches_, { b with pendingPatches_ := [] })

/-- `GapBuffer::hasPendingPatches`. -/
def hasPendingPatches (b : GapBuffer) : Bool :=
  !b.pendingPatches_.isEmpty

/-- The structural invariant of the buffer:
`0 ≤ gapStart_ ≤ gapEnd_ ≤ buffer_.size()` (the first bound is implicit in
`Nat`). -/
def Wf (b : GapBuffer) : Prop :=
  b.gapStart_ ≤ b.gapEnd_ ∧ b.gapEnd_ ≤ b.buffer_.length

instance (b : GapBuffer) : Decidable (Wf b) :=
  inferInstanceAs (Decidable (_ ∧ _))

end GapBuffer

/-- A patch is pure when it is a pure insertion (nothing removed, something
inserted) or a pure deletion (nothing inserted, something removed). -/
def PurePatch (p : Patch) : Prop :=
  (p.removedLength = 0 ∧ p.insertedText ≠ []) ∨
  (p.insertedText = [] ∧ 1 ≤ p.removedLength)

instance (p : Patch) : Decidable (PurePatch p) :=
  inferInstanceAs (Decidable (_ ∨ _))

namespace GapBuffer

/-! ### Basic length facts -/

theorem readAt_length (l : List Char) (pos len : Nat)
    (h : pos + len ≤ l.length) : (readAt l pos len).length = len := by
  simp [readAt]
  omega

theorem writeAt_length (l : List Char) (pos : Nat) (src : List Char)
    (h : pos + src.length ≤ l.length) : (writeAt l pos src).length = l.length := by
  simp [writeAt]
  omega

theorem listResize_length (l : List Char) (n : Nat) :
    (listResize l n).length = n := by
  simp [listResize]
  omega

theorem getText_length (b : GapBuffer) (hw : b.Wf) :
    b.getText.length = b.length := by
  obtain ⟨h1, h2⟩ := hw
  simp [getText, length]
  omega

/-! ### Gap relocation preserves the observable state -/

theorem moveGapTo_spec (b : GapBuffer) (hw : b.Wf) (pos : Nat)
    (hpos : pos ≤ b.length) :
    (b.moveGapTo pos).Wf ∧
    (b.moveGapTo pos).gapStart_ = pos ∧
    (b.moveGapTo pos).gapEnd_ = pos + (b.gapEnd_ - b.gapStart_) ∧
    (b.moveGapTo pos).buffer_.length = b.buffer_.length ∧
    (b.moveGapTo pos).getText = b.getText ∧
    (b.moveGapTo pos).pendingPatches_ = b.pendingPatches_ := by
  obtain ⟨buf, gs, ge, ps⟩ := b
  simp only [Wf] at hw
  obtain ⟨hw1, hw2⟩ := hw
  simp only [length] at hpos hw1 hw2
  simp only [moveGapTo, Wf, getText, length]
  by_cases heq : pos = gs
  · subst heq
    rw [if_pos rfl]
    dsimp only
    exact ⟨⟨hw1, hw2⟩, rfl, by omega, rfl, rfl, rfl⟩
  · rw [if_neg heq]
    by_cases hlt : pos < gs
    · rw [if_pos hlt]
      dsimp only
      have hRlen : (readAt buf pos (gs - pos)).length = gs - pos :=
        readAt_length _ _ _ (by omega)
      have hB : writeAt buf (ge - (gs - pos)) (readAt buf pos (gs - pos)) =
          buf.take (ge - (gs - pos)) ++ readAt buf pos (gs - pos) ++ buf.drop ge := by
        rw [writeAt, hRlen]
        have h : ge - (gs - pos) + (gs - pos) = ge := by omega
        rw [h]
      have hBlen : (writeAt buf (ge - (gs - pos)) (readAt buf pos (gs - pos))).length =
          buf.length := by
        rw [hB]
        simp only [List.length_append, List.length_take, List.length_drop, hRlen]
        omega
      refine ⟨⟨by omega, by rw [hBlen]; omega⟩, rfl, rfl, hBlen, ?_, rfl⟩
      rw [hB]
      have htake : (buf.take (ge - (gs - pos)) ++ readAt buf pos (gs - pos) ++
          buf.drop ge).take pos = buf.take pos := by
        rw [List.append_assoc,
          List.take_append_of_le_length (by simp; omega), List.take_take]
        congr 1
        omega
      have hdrop : (buf.take (ge - (gs - pos)) ++ readAt buf pos (gs - pos) ++
          buf.drop ge).drop (pos + (ge - gs)) =
          readAt buf pos (gs - pos) ++ buf.drop ge := by
        rw [List.append_assoc]
        exact List.drop_left' (by simp; omega)
      rw [htake, hdrop]
      have hsplit : buf.take gs = buf.take pos ++ readAt buf pos (gs - pos) :=
        calc buf.take gs = buf.take (pos + (gs - pos)) := by congr 1; omega
          _ = buf.take pos ++ (buf.drop pos).take (gs - pos) := List.take_add _ _ _
          _ = buf.take pos ++ readAt buf pos (gs - pos) := rfl
      rw [hsplit, List.append_assoc]
    · rw [if_neg hlt]
      dsimp only
      have hgep : ge + (pos - gs) ≤ buf.length := by omega
      have hRlen : (readAt buf ge (pos - gs)).length = pos - gs :=
        readAt_length _ _ _ (by omega)
      have hB : writeAt buf gs (readAt buf ge (pos - gs)) =
          buf.take gs ++ (readAt buf ge (pos - gs) ++ buf.drop pos) := by
        rw [writeAt, hRlen]
        have h : gs + (pos - gs) = pos := by omega
        rw [h, List.append_assoc]
      have hAlen : (buf.take gs).length = gs := by simp; omega
      have hBlen : (writeAt buf gs (readAt buf ge (pos - gs))).length = buf.length := by
        rw [hB]
        simp only [List.length_append, List.length_take, List.length_drop, hRlen]
        omega
      refine ⟨⟨by omega, by rw [hBlen]; omega⟩, rfl, rfl, hBlen, ?_, rfl⟩
      rw [hB]
      have htake : (buf.take gs ++ (readAt buf ge (pos - gs) ++ buf.drop pos)).take pos =
          buf.take gs ++ readAt buf ge (pos - gs) :=
        calc (buf.take gs ++ (readAt buf ge (pos - gs) ++ buf.drop pos)).take pos
            = (buf.take gs ++ (readAt buf ge (pos - gs) ++ buf.drop pos)).take
                ((buf.take gs).length + (pos - gs)) := by rw [hAlen]; congr 1; omega
          _ = buf.take gs ++ (readAt buf ge (pos - gs) ++ buf.drop pos).take (pos - gs) :=
              List.take_append _
          _ = buf.take gs ++ readAt buf ge (pos - gs) := by
              congr 1
              rw [List.take_append_of_le_length (le_of_eq hRlen.symm)]
              exact List.take_of_length_le (le_of_eq hRlen)
      have hdrop : (buf.take gs ++ (readAt buf ge (pos - gs) ++ buf.drop pos)).drop
          (pos + (ge - gs)) = buf.drop (ge + (pos - gs)) :=
        calc (buf.take gs ++ (readAt buf ge (pos - gs) ++ buf.drop pos)).drop (pos + (ge - gs))
            = (buf.take gs ++ (readAt buf ge (pos - gs) ++ buf.drop pos)).drop
                ((buf.take gs).length + (pos - gs + (ge - gs))) := by
              rw [hAlen]; congr 1; omega
          _ = (readAt buf ge (pos - gs) ++ buf.drop pos).drop (pos - gs + (ge - gs)) :=
              List.drop_append _
          _ = (readAt buf ge (pos - gs) ++ buf.drop pos).drop
                ((readAt buf ge (pos - gs)).length + (ge - gs)) := by rw [hRlen]
          _ = (buf.drop pos).drop (ge - gs) := List.drop_append _
          _ = buf.drop (ge + (pos - gs)) := by rw [List.drop_drop]; congr 1; omega
      rw [htake, hdrop]
      have hsplit : buf.drop ge = readAt buf ge (pos - gs) ++ buf.drop (ge + (pos - gs)) := by
        have h := List.take_append_drop (pos - gs) (buf.drop ge)
        rw [List.drop_drop] at h
        rw [readAt]
        exact h.symm
      rw [hsplit, List.append_assoc]

/-! ### Growth preserves the observable state -/

theorem grow_spec (b : GapBuffer) (hw : b.Wf) (m : Nat)
    (hm : b.buffer_.length ≤ m) :
    (b.grow m).Wf ∧
    (b.grow m).gapStart_ = b.gapStart_ ∧
    (b.grow m).gapEnd_ - (b.grow m).gapStart_ =
      (b.gapEnd_ - b.gapStart_) + (m - b.buffer_.length) ∧
    (b.grow m).buffer_.length = m ∧
    (b.grow m).getText = b.getText ∧
    (b.grow m).length = b.length ∧
    (b.grow m).pendingPatches_ = b.pendingPatches_ := by
  obtain ⟨buf, gs, ge, ps⟩ := b
  simp only [Wf] at hw
  obtain ⟨hw1, hw2⟩ := hw
  dsimp only at hm
  have hres : listResize buf m = buf ++ List.replicate (m - buf.length) nulByte := by
    rw [listResize, List.take_of_length_le hm]
  have hreslen : (listResize buf m).length = m := listResize_length _ _
  by_cases h0 : buf.length - ge > 0
  · have hR : readAt (listResize buf m) ge (buf.length - ge) = buf.drop ge := by
      rw [hres, readAt, List.drop_append_of_le_length hw2]
      exact List.take_left' (by simp)
    have hB : writeAt (listResize buf m) (m - (buf.length - ge))
        (readAt (listResize buf m) ge (buf.length - ge)) =
        (listResize buf m).take (m - (buf.length - ge)) ++ buf.drop ge := by
      rw [writeAt, hR]
      have h1 : m - (buf.length - ge) + (buf.drop ge).length = m := by simp; omega
      rw [h1, List.drop_eq_nil_of_le (le_of_eq hreslen), List.append_nil]
    have hstate : GapBuffer.grow ⟨buf, gs, ge, ps⟩ m =
        ⟨(listResize buf m).take (m - (buf.length - ge)) ++ buf.drop ge,
          gs, m - (buf.length - ge), ps⟩ := by
      simp only [grow]
      rw [if_pos h0, hB]
    rw [hstate]
    have hBlen : ((listResize buf m).take (m - (buf.length - ge)) ++ buf.drop ge).length
        = m := by
      simp only [List.length_append, List.length_take, List.length_drop, hreslen]
      omega
    have htake : ((listResize buf m).take (m - (buf.length - ge)) ++ buf.drop ge).take gs =
        buf.take gs := by
      rw [List.take_append_of_le_length (by simp [hreslen]; omega), List.take_take,
        Nat.min_eq_left (by omega), hres, List.take_append_of_le_length (by omega)]
    have hdrop : ((listResize buf m).take (m - (buf.length - ge)) ++ buf.drop ge).drop
        (m - (buf.length - ge)) = buf.drop ge :=
      List.drop_left' (by simp [hreslen])
    refine ⟨⟨?_, ?_⟩, rfl, ?_, ?_, ?_, ?_, rfl⟩
    · try dsimp only
      omega
    · try dsimp only
      rw [hBlen]
      omega
    · try dsimp only
      omega
    · try dsimp only
      exact hBlen
    · simp only [getText]
      try dsimp only
      rw [htake, hdrop]
    · simp only [length]
      try dsimp only
      rw [hBlen]
      omega
  · have hge : ge = buf.length := by omega
    have hstate : GapBuffer.grow ⟨buf, gs, ge, ps⟩ m =
        ⟨listResize buf m, gs, m - (buf.length - ge), ps⟩ := by
      simp only [grow]
      rw [if_neg h0]
    rw [hstate]
    refine ⟨⟨?_, ?_⟩, rfl, ?_, ?_, ?_, ?_, rfl⟩
    · try dsimp only
      omega
    · try dsimp only
      rw [hreslen]
      omega
    · try dsimp only
      omega
    · try dsimp only
      exact hreslen
    · simp only [getText]
      try dsimp only
      have h1 : m - (buf.length - ge) = m := by omega
      rw [h1, List.drop_eq_nil_of_le (le_of_eq hreslen),
        List.drop_eq_nil_of_le (le_of_eq hge.symm), hres,
        List.take_append_of_le_length (by omega)]
    · simp only [length]
      try dsimp only
      rw [hreslen]
      omega

/-! ### Gap capacity assurance preserves the observable state -/

theorem ensureGapCapacity_spec (b : GapBuffer) (hw : b.Wf) (r : Nat) :
    (b.ensureGapCapacity r).Wf ∧
    (b.ensureGapCapacity r).gapStart_ = b.gapStart_ ∧
    r ≤ (b.ensureGapCapacity r).gapEnd_ - (b.ensureGapCapacity r).gapStart_ ∧
    (b.ensureGapCapacity r).getText = b.getText ∧
    (b.ensureGapCapacity r).length = b.length ∧
    (b.ensureGapCapacity r).pendingPatches_ = b.pendingPatches_ := by
  by_cases h : b.gapEnd_ - b.gapStart_ ≥ r
  · have hstate : b.ensureGapCapacity r = b := by
      simp only [ensureGapCapacity]
      rw [if_pos h]
    rw [hstate]
    exact ⟨hw, rfl, h, rfl, rfl, rfl⟩
  · have hm : b.buffer_.length ≤
        max (b.buffer_.length * 2) (b.length + r + kMinGapSize) := by
      have := Nat.le_max_left (b.buffer_.length * 2) (b.length + r + kMinGapSize)
      omega
    have hstate : b.ensureGapCapacity r =
        b.grow (max (b.buffer_.length * 2) (b.length + r + kMinGapSize)) := by
      simp only [ensureGapCapacity]
      rw [if_neg h]
    obtain ⟨g1, g2, g3, g4, g5, g6, g7⟩ := grow_spec b hw _ hm
    rw [hstate]
    refine ⟨g1, g2, ?_, g5, g6, g7⟩
    have hmr := Nat.le_max_right (b.buffer_.length * 2) (b.length + r + kMinGapSize)
    simp only [Wf] at hw
    rw [g3]
    simp only [length] at hmr ⊢
    omega

/-! ### The specification of insert -/

theorem insert_spec (b : GapBuffer) (hw : b.Wf) (offset : Nat) (text : List Char)
    (ht : text ≠ []) :
    (b.insert offset text).Wf ∧
    (b.insert offset text).getText =
      (b.getText.take (min offset b.length)) ++ text ++
        (b.getText.drop (min offset b.length)) ∧
    (b.insert offset text).length = b.length + text.length ∧
    (b.insert offset text).pendingPatches_ =
      recordPatch b.pendingPatches_ (min offset b.length) 0 text := by
  obtain ⟨e1, e2, e3, e4, e5, e6⟩ := ensureGapCapacity_spec b hw text.length
  set c := min offset b.length with hc
  have hcb : c ≤ b.length := min_le_right _ _
  have hofs : c ≤ (b.ensureGapCapacity text.length).length := by
    rw [e5]
    exact hcb
  obtain ⟨m1, m2, m3, m4, m5, m6⟩ :=
    moveGapTo_spec (b.ensureGapCapacity text.length) e1 c hofs
  set b2 := (b.ensureGapCapacity text.length).moveGapTo c with hb2
  simp only [Wf] at m1
  have hgap2 : b2.gapStart_ + text.length ≤ b2.gapEnd_ := by
    rw [m2, m3]
    omega
  have hstate : b.insert offset text =
      ⟨writeAt b2.buffer_ b2.gapStart_ text, b2.gapStart_ + text.length, b2.gapEnd_,
        recordPatch b2.pendingPatches_ c 0 text⟩ := by
    simp only [insert]
    rw [if_neg ht]
  have hlen3 : (writeAt b2.buffer_ b2.gapStart_ text).length = b2.buffer_.length :=
    writeAt_length _ _ _ (by omega)
  have hA : (b2.buffer_.take b2.gapStart_).length = b2.gapStart_ := by
    simp
    omega
  have htake3 : (writeAt b2.buffer_ b2.gapStart_ text).take (b2.gapStart_ + text.length) =
      b2.buffer_.take b2.gapStart_ ++ text := by
    rw [writeAt]
    exact List.take_left' (by simp; omega)
  have hdrop3 : (writeAt b2.buffer_ b2.gapStart_ text).drop b2.gapEnd_ =
      b2.buffer_.drop b2.gapEnd_ := by
    rw [writeAt]
    calc ((b2.buffer_.take b2.gapStart_ ++ text) ++
            b2.buffer_.drop (b2.gapStart_ + text.length)).drop b2.gapEnd_
        = ((b2.buffer_.take b2.gapStart_ ++ text) ++
            b2.buffer_.drop (b2.gapStart_ + text.length)).drop
            ((b2.buffer_.take b2.gapStart_ ++ text).length +
              (b2.gapEnd_ - b2.gapStart_ - text.length)) := by
          congr 1
          simp
          omega
      _ = (b2.buffer_.drop (b2.gapStart_ + text.length)).drop
            (b2.gapEnd_ - b2.gapStart_ - text.length) := List.drop_append _
      _ = b2.buffer_.drop b2.gapEnd_ := by
          rw [List.drop_drop]
          congr 1
          omega
  have hgtb : b.getText = b2.getText := by
    rw [m5, e4]
  have h1 : b.getText.take c = b2.buffer_.take b2.gapStart_ := by
    rw [hgtb, getText]
    exact List.take_left' (by rw [hA, m2])
  have h2 : b.getText.drop c = b2.buffer_.drop b2.gapEnd_ := by
    rw [hgtb, getText]
    exact List.drop_left' (by rw [hA, m2])
  have hg3 : GapBuffer.getText ⟨writeAt b2.buffer_ b2.gapStart_ text,
      b2.gapStart_ + text.length, b2.gapEnd_, recordPatch b2.pendingPatches_ c 0 text⟩ =
      b2.buffer_.take b2.gapStart_ ++ text ++ b2.buffer_.drop b2.gapEnd_ := by
    simp only [getText]
    try dsimp only
    rw [htake3, hdrop3]
  refine ⟨?_, ?_, ?_, ?_⟩
  · rw [hstate]
    refine ⟨?_, ?_⟩
    · try dsimp only
      omega
    · try dsimp only
      rw [hlen3]
      omega
  · rw [hstate, hg3, h1, h2]
  · rw [hstate]
    simp only [length]
    try dsimp only
    rw [hlen3]
    have he5 : (b.ensureGapCapacity text.length).buffer_.length -
        ((b.ensureGapCapacity text.length).gapEnd_ -
          (b.ensureGapCapacity text.length).gapStart_) =
        b.buffer_.length - (b.gapEnd_ - b.gapStart_) := by
      have h := e5
      simp only [length] at h
      exact h
    simp only [Wf] at e1
    have hL : GapBuffer.length b = b.buffer_.length - (b.gapEnd_ - b.gapStart_) := rfl
    omega
  · rw [hstate]
    try dsimp only
    rw [m6, e6]

/-! ### The specification of erase -/

theorem erase_spec (b : GapBuffer) (hw : b.Wf) (offset len : Nat)
    (ho : offset < b.length) (hl : len ≠ 0) :
    (b.erase offset len).Wf ∧
    (b.erase offset len).getText =
      b.getText.take offset ++ b.getText.drop (offset + min len (b.length - offset)) ∧
    (b.erase offset len).length = b.length - min len (b.length - offset) ∧
    (b.erase offset len).pendingPatches_ =
      recordPatch b.pendingPatches_ offset (min len (b.length - offset)) [] := by
  obtain ⟨m1, m2, m3, m4, m5, m6⟩ := moveGapTo_spec b hw offset (le_of_lt ho)
  set b1 := b.moveGapTo offset with hb1
  set k := min len (b.length - offset) with hk
  have hk1 : 1 ≤ k := by
    have : 1 ≤ b.length - offset := by omega
    omega
  have hkle : k ≤ b.length - offset := min_le_right _ _
  simp only [Wf] at m1 hw
  have hL : GapBuffer.length b = b.buffer_.length - (b.gapEnd_ - b.gapStart_) := rfl
  have hlenb1 : b1.buffer_.length - (b1.gapEnd_ - b1.gapStart_) = b.length := by
    omega
  have hstate : b.erase offset len =
      ⟨b1.buffer_, b1.gapStart_, b1.gapEnd_ + k,
        recordPatch b1.pendingPatches_ offset k []⟩ := by
    simp only [erase]
    rw [if_neg (by omega)]
  have hgek : b1.gapEnd_ + k ≤ b1.buffer_.length := by
    omega
  have hgtb : b.getText = b1.getText := m5.symm
  have hA : (b1.buffer_.take b1.gapStart_).length = b1.gapStart_ := by
    simp
    omega
  have h1 : b.getText.take offset = b1.buffer_.take b1.gapStart_ := by
    rw [hgtb, getText]
    exact List.take_left' (by rw [hA, m2])
  have h2 : b.getText.drop (offset + k) = b1.buffer_.drop (b1.gapEnd_ + k) := by
    rw [hgtb, getText]
    calc (b1.buffer_.take b1.gapStart_ ++ b1.buffer_.drop b1.gapEnd_).drop (offset + k)
        = (b1.buffer_.take b1.gapStart_ ++ b1.buffer_.drop b1.gapEnd_).drop
            ((b1.buffer_.take b1.gapStart_).length + k) := by rw [hA, m2]
      _ = (b1.buffer_.drop b1.gapEnd_).drop k := List.drop_append _
      _ = b1.buffer_.drop (b1.gapEnd_ + k) := by rw [List.drop_drop]
  have hg1 : GapBuffer.getText ⟨b1.buffer_, b1.gapStart_, b1.gapEnd_ + k,
      recordPatch b1.pendingPatches_ offset k []⟩ =
      b1.buffer_.take b1.gapStart_ ++ b1.buffer_.drop (b1.gapEnd_ + k) := by
    simp only [getText]
  refine ⟨?_, ?_, ?_, ?_⟩
  · rw [hstate]
    refine ⟨?_, ?_⟩
    · try dsimp only
      omega
    · try dsimp only
      exact hgek
  · rw [hstate, hg1, h1, h2]
  · rw [hstate]
    simp only [length]
    try dsimp only
    omega
  · rw [hstate]
    try dsimp only
    rw [m6]

/-! ### Trivial branch lemmas -/

theorem insert_nil (b : GapBuffer) (offset : Nat) : b.insert offset [] = b := by
  simp [insert]

theorem erase_noop (b : GapBuffer) (offset len : Nat)
    (h : b.length ≤ offset ∨ len = 0) : b.erase offset len = b := by
  simp only [erase]
  rw [if_pos h]

theorem moveGapTo_pendingPatches (b : GapBuffer) (pos : Nat) :
    (b.moveGapTo pos).pendingPatches_ = b.pendingPatches_ := by
  simp only [moveGapTo]
  split
  · rfl
  · split <;> rfl

theorem grow_pendingPatches (b : GapBuffer) (m : Nat) :
    (b.grow m).pendingPatches_ = b.pendingPatches_ := rfl

theorem ensureGapCapacity_pendingPatches (b : GapBuffer) (r : Nat) :
    (b.ensureGapCapacity r).pendingPatches_ = b.pendingPatches_ := by
  simp only [ensureGapCapacity]
  split
  · rfl
  · rfl

theorem insert_pendingPatches (b : GapBuffer) (offset : Nat) (text : List Char)
    (ht : text ≠ []) :
    (b.insert offset text).pendingPatches_ =
      recordPatch b.pendingPatches_ (min offset b.length) 0 text := by
  simp only [insert]
  rw [if_neg ht]
  try dsimp only
  rw [moveGapTo_pendingPatches, ensureGapCapacity_pendingPatches]

theorem erase_pendingPatches (b : GapBuffer) (offset len : Nat)
    (ho : offset < b.length) (hl : len ≠ 0) :
    (b.erase offset len).pendingPatches_ =
      recordPatch b.pendingPatches_ offset (min len (b.length - offset)) [] := by
  simp only [erase]
  rw [if_neg (by omega)]
  try dsimp only
  rw [moveGapTo_pendingPatches]

/-! ### Loading -/

theorem loadFromString_buffer (b : GapBuffer) (t : List Char) :
    (b.loadFromString t).buffer_ =
      t ++ (listResize b.buffer_
        (max (t.length + kMinGapSize) kDefaultCapacity)).drop t.length := by
  simp only [loadFromString, writeAt]
  simp

theorem loadFromString_buffer_length (b : GapBuffer) (t : List Char) :
    (b.loadFromString t).buffer_.length =
      max (t.length + kMinGapSize) kDefaultCapacity := by
  rw [loadFromString_buffer]
  simp only [List.length_append, List.length_drop, listResize_length]
  have := Nat.le_max_left (t.length + kMinGapSize) kDefaultCapacity
  omega

theorem loadFromString_gapStart (b : GapBuffer) (t : List Char) :
    (b.loadFromString t).gapStart_ = t.length := rfl

theorem loadFromString_gapEnd (b : GapBuffer) (t : List Char) :
    (b.loadFromString t).gapEnd_ = max (t.length + kMinGapSize) kDefaultCapacity := rfl

theorem loadFromString_pendingPatches (b : GapBuffer) (t : List Char) :
    (b.loadFromString t).pendingPatches_ = [] := rfl

theorem loadFromString_wf (b : GapBuffer) (t : List Char) :
    (b.loadFromString t).Wf := by
  constructor
  · rw [loadFromString_gapStart, loadFromString_gapEnd]
    have := Nat.le_max_left (t.length + kMinGapSize) kDefaultCapacity
    omega
  · rw [loadFromString_gapEnd, loadFromString_buffer_length]

theorem loadFromString_length (b : GapBuffer) (t : List Char) :
    (b.loadFromString t).length = t.length := by
  simp only [length]
  rw [loadFromString_gapStart, loadFromString_gapEnd, loadFromString_buffer_length]
  have := Nat.le_max_left (t.length + kMinGapSize) kDefaultCapacity
  omega

theorem loadFromString_preGap (b : GapBuffer) (t : List Char) :
    (b.loadFromString t).buffer_.take (b.loadFromString t).gapStart_ = t := by
  rw [loadFromString_buffer, loadFromString_gapStart]
  exact List.take_left' rfl

theorem loadFromString_postGap (b : GapBuffer) (t : List Char) :
    (b.loadFromString t).buffer_.drop (b.loadFromString t).gapEnd_ = [] := by
  apply List.drop_eq_nil_of_le
  rw [loadFromString_buffer_length, loadFromString_gapEnd]

theorem loadFromString_getText (b : GapBuffer) (t : List Char) :
    (b.loadFromString t).getText = t := by
  rw [getText, loadFromString_preGap, loadFromString_postGap, List.append_nil]

theorem loadFromString_hasPendingPatches (b : GapBuffer) (t : List Char) :
    (b.loadFromString t).hasPendingPatches = false := rfl

/-! ### The range read agrees with the full text -/

theorem getTextRange_eq (b : GapBuffer) (hw : b.Wf) (start len : Nat) :
    b.getTextRange start len = (b.getText.drop start).take len := by
  obtain ⟨buf, gs, ge, ps⟩ := b
  simp only [Wf] at hw
  obtain ⟨hw1, hw2⟩ := hw
  simp only [getTextRange, getText, length, readAt]
  try dsimp only
  by_cases h1 : start ≥ buf.length - (ge - gs)
  · rw [if_pos h1]
    have hnil : (buf.take gs ++ buf.drop ge).drop start = [] := by
      apply List.drop_eq_nil_of_le
      simp
      omega
    rw [hnil, List.take_nil]
  · rw [if_neg h1]
    have hAlen : (buf.take gs).length = gs := by
      simp
      omega
    have hRHS : ((buf.take gs ++ buf.drop ge).drop start).take len =
        ((buf.take gs ++ buf.drop ge).drop start).take
          (min len (buf.length - (ge - gs) - start)) := by
      apply List.take_eq_take.mpr
      simp
      omega
    by_cases h2 : min len (buf.length - (ge - gs) - start) = 0
    · rw [if_pos h2]
      have hlen0 : len = 0 := by omega
      rw [hRHS, h2, List.take_zero]
    · rw [if_neg h2]
      rw [hRHS]
      by_cases h3 : start < gs
      · rw [if_pos h3]
        have hsplitRHS : (buf.take gs ++ buf.drop ge).drop start =
            (buf.take gs).drop start ++ buf.drop ge :=
          List.drop_append_of_le_length (by omega)
        by_cases h4 : start + min len (buf.length - (ge - gs) - start) > gs
        · rw [if_pos h4]
          have hmin : min (start + min len (buf.length - (ge - gs) - start)) gs = gs := by
            omega
          rw [hmin, hsplitRHS, List.take_append_eq_append_take]
          congr 1
          · rw [List.drop_take, List.take_take,
              Nat.min_eq_right (by omega)]
          · congr 1
            simp
            omega
        · rw [if_neg h4]
          have hmin : min (start + min len (buf.length - (ge - gs) - start)) gs =
              start + min len (buf.length - (ge - gs) - start) := by
            omega
          rw [hmin, Nat.add_sub_cancel_left, hsplitRHS,
            List.take_append_of_le_length (by simp only [List.length_drop, hAlen]; omega),
            List.drop_take, List.take_take]
          apply List.take_eq_take.mpr
          simp only [List.length_drop]
          omega
      · rw [if_neg h3]
        have hdropRHS : (buf.take gs ++ buf.drop ge).drop start =
            buf.drop (ge + (start - gs)) :=
          calc (buf.take gs ++ buf.drop ge).drop start
              = (buf.take gs ++ buf.drop ge).drop ((buf.take gs).length + (start - gs)) := by
                rw [hAlen]
                congr 1
                omega
            _ = (buf.drop ge).drop (start - gs) := List.drop_append _
            _ = buf.drop (ge + (start - gs)) := by rw [List.drop_drop]
        rw [hdropRHS]

/-! ### Line queries on a freshly loaded buffer -/

theorem lineFromOffset_load (b : GapBuffer) (t : List Char) (off : Nat) :
    (b.loadFromString t).lineFromOffset off =
      (t.take (min off t.length)).count '\n' := by
  simp only [lineFromOffset]
  rw [loadFromString_length, loadFromString_gapStart]
  have h1 : min (min off t.length) t.length = min off t.length := by omega
  rw [h1, if_neg (by omega)]
  congr 1
  rw [loadFromString_buffer, List.take_append_of_le_length (by omega)]

theorem offsetFromLine_load (b : GapBuffer) (t : List Char) (line column : Nat) :
    (b.loadFromString t).offsetFromLine line column =
      if line = 0 ∧ column = 0 then 0
      else min ((scanLines t 0 0 line).2 + column) t.length := by
  simp only [offsetFromLine]
  rw [loadFromString_length, loadFromString_preGap, loadFromString_postGap]
  split
  · rfl
  · simp only [scanLines, Prod.mk.eta, ite_self]

theorem lineCount_load (b : GapBuffer) (t : List Char) :
    (b.loadFromString t).lineCount = if t.length = 0 then 0 else 1 + t.count '\n' := by
  simp only [lineCount]
  rw [loadFromString_length, loadFromString_preGap, loadFromString_postGap]
  simp

/-! ### Clearing and flushing -/

theorem clear_pendingPatches (b : GapBuffer) : b.clear.pendingPatches_ = [] := rfl

theorem clear_wf (b : GapBuffer) : b.clear.Wf := ⟨Nat.zero_le _, Nat.le_refl _⟩

theorem flushPatches_fst (b : GapBuffer) : (b.flushPatches).1 = b.pendingPatches_ := rfl

theorem flushPatches_snd_pendingPatches (b : GapBuffer) :
    (b.flushPatches).2.pendingPatches_ = [] := rfl

theorem flushPatches_snd_wf (b : GapBuffer) (hw : b.Wf) : (b.flushPatches).2.Wf := hw

/-! ### Purity of recorded patches -/

theorem recordPatch_pure (ps : List Patch) (start removedLength : Nat)
    (inserted : List Char)
    (hps : ∀ p ∈ ps, PurePatch p)
    (hnew : (removedLength = 0 ∧ inserted ≠ []) ∨ (inserted = [] ∧ 1 ≤ removedLength)) :
    ∀ p ∈ recordPatch ps start removedLength inserted, PurePatch p := by
  intro p hp
  rcases hlast : ps.getLast? with _ | last
  · rw [recordPatch, hlast] at hp
    rcases List.mem_append.mp hp with h | h
    · exact hps p h
    · rw [List.mem_singleton.mp h]
      exact hnew
  · have hlmem : last ∈ ps := List.mem_of_getLast?_eq_some hlast
    have hlpure : PurePatch last := hps last hlmem
    rw [recordPatch, hlast] at hp
    dsimp only at hp
    by_cases hc1 : removedLength = 0 ∧ last.removedLength = 0 ∧
        start = last.start + last.insertedText.length
    · rw [if_pos hc1] at hp
      rcases List.mem_append.mp hp with h | h
      · exact hps p ((List.dropLast_sublist _).subset h)
      · rw [List.mem_singleton.mp h]
        left
        refine ⟨hc1.2.1, ?_⟩
        rcases hnew with ⟨_, hne⟩ | ⟨_, hge⟩
        · simp [hne]
        · omega
    · rw [if_neg hc1] at hp
      by_cases hc2 : inserted = [] ∧ last.insertedText = [] ∧
          start + removedLength = last.start
      · rw [if_pos hc2] at hp
        rcases List.mem_append.mp hp with h | h
        · exact hps p ((List.dropLast_sublist _).subset h)
        · rw [List.mem_singleton.mp h]
          right
          refine ⟨hc2.2.1, ?_⟩
          rcases hlpure with ⟨_, hne⟩ | ⟨_, hge⟩
          · exact absurd hc2.2.1 hne
          · simp
            omega
      · rw [if_neg hc2] at hp
        rcases List.mem_append.mp hp with h | h
        · exact hps p h
        · rw [List.mem_singleton.mp h]
          exact hnew

/-! ### Claim theorems -/

/-- C1: `insert(offset, text)` is a no-op on empty text; otherwise it splices
`text` into the content at the clamped offset `min offset (length b)` and the
length grows by `text.length`; in particular inserting `"Beautiful "` at 7
into `"Hello, World!"` yields `"Hello, Beautiful World!"` of length 23. -/
theorem claim_insert_correct (b : GapBuffer) (hw : b.Wf) (offset : Nat)
    (text : List Char) :
    (text = [] → b.insert offset text = b) ∧
    (text ≠ [] →
      (b.insert offset text).getText =
        b.getText.take (min offset b.length) ++ text ++
          b.getText.drop (min offset b.length) ∧
      (b.insert offset text).length = b.length + text.length) ∧
    ((b.loadFromString "Hello, World!".toList).insert 7 "Beautiful ".toList).getText =
      "Hello, Beautiful World!".toList ∧
    ((b.loadFromString "Hello, World!".toList).insert 7 "Beautiful ".toList).length =
      23 := by
  refine ⟨?_, ?_, ?_, ?_⟩
  · intro h
    rw [h, insert_nil]
  · intro ht
    obtain ⟨_, g2, g3, _⟩ := insert_spec b hw offset text ht
    exact ⟨g2, g3⟩
  · obtain ⟨_, g2, _, _⟩ := insert_spec _ (loadFromString_wf b "Hello, World!".toList)
      7 "Beautiful ".toList (by decide)
    rw [g2, loadFromString_getText, loadFromString_length]
    decide
  · obtain ⟨_, _, g3, _⟩ := insert_spec _ (loadFromString_wf b "Hello, World!".toList)
      7 "Beautiful ".toList (by decide)
    rw [g3, loadFromString_length]
    decide

theorem claim_insert_correct_witness :
    (mkCap 0).Wf ∧
    ((['X'] : List Char) ≠ [] →
      ((mkCap 0).insert 1 ['X']).getText =
        (mkCap 0).getText.take (min 1 (mkCap 0).length) ++ ['X'] ++
          (mkCap 0).getText.drop (min 1 (mkCap 0).length) ∧
      ((mkCap 0).insert 1 ['X']).length = (mkCap 0).length + (['X'] : List Char).length) :=
  ⟨by decide, (claim_insert_correct (mkCap 0) (by decide) 1 ['X']).2.1⟩

/-- C2: `erase(offset, len)` is a no-op when `offset ≥ length()` or `len = 0`;
otherwise it removes the clamped span `[offset, offset + min len (length - offset))`
and the length shrinks accordingly; in particular `erase(5,1)` on
`"Hello, World!"` yields `"Hello World!"`. -/
theorem claim_erase_correct (b : GapBuffer) (hw : b.Wf) (offset len : Nat) :
    (b.length ≤ offset ∨ len = 0 → b.erase offset len = b) ∧
    (offset < b.length → len ≠ 0 →
      (b.erase offset len).getText =
        b.getText.take offset ++
          b.getText.drop (offset + min len (b.length - offset)) ∧
      (b.erase offset len).length = b.length - min len (b.length - offset)) ∧
    ((b.loadFromString "Hello, World!".toList).erase 5 1).getText =
      "Hello World!".toList := by
  refine ⟨?_, ?_, ?_⟩
  · exact erase_noop b offset len
  · intro ho hl
    obtain ⟨_, g2, g3, _⟩ := erase_spec b hw offset len ho hl
    exact ⟨g2, g3⟩
  · obtain ⟨_, g2, _, _⟩ := erase_spec _ (loadFromString_wf b "Hello, World!".toList)
      5 1 (by rw [loadFromString_length]; decide) (by decide)
    rw [g2, loadFromString_getText, loadFromString_length]
    decide

theorem claim_erase_correct_witness :
    (mkCap 0).Wf ∧ ((mkCap 0).length ≤ 5 ∨ (1 : Nat) = 0) ∧
    (mkCap 0).erase 5 1 = mkCap 0 :=
  ⟨by decide, Or.inl (by decide),
    (claim_erase_correct (mkCap 0) (by decide) 5 1).1 (Or.inl (by decide))⟩

/-- C3: immediately after `loadFromString s`, the text equals `s` and no
patches are pending, for every prior state. -/
theorem claim_load_resets (b : GapBuffer) (s : List Char) :
    (b.loadFromString s).getText = s ∧
    (b.loadFromString s).hasPendingPatches = false :=
  ⟨loadFromString_getText b s, loadFromString_hasPendingPatches b s⟩

/-- C4: the ranged `getText(start, len)` returns the clamped substring of the
full content regardless of the gap position: empty when `start ≥ length()`,
otherwise the bytes in `[start, start + min len (length - start))`; in
particular after loading `"ABCDEFGHIJ"` and `insert(5, "XYZ")`,
`getText(3,6) = "DEXYZF"`. -/
theorem claim_getTextRange_correct (b : GapBuffer) (hw : b.Wf) (start len : Nat) :
    (b.length ≤ start → b.getTextRange start len = []) ∧
    (start < b.length →
      b.getTextRange start len =
        (b.getText.drop start).take (min len (b.length - start))) ∧
    ((b.loadFromString "ABCDEFGHIJ".toList).insert 5 "XYZ".toList).getTextRange 3 6 =
      "DEXYZF".toList := by
  refine ⟨?_, ?_, ?_⟩
  · intro h
    rw [getTextRange_eq b hw,
      List.drop_eq_nil_of_le (by rw [getText_length b hw]; omega), List.take_nil]
  · intro h
    rw [getTextRange_eq b hw]
    apply List.take_eq_take.mpr
    rw [List.length_drop, getText_length b hw]
    omega
  · obtain ⟨hw2, g2, g3, _⟩ := insert_spec _ (loadFromString_wf b "ABCDEFGHIJ".toList)
      5 "XYZ".toList (by decide)
    rw [getTextRange_eq _ hw2, g2, loadFromString_getText, loadFromString_length]
    decide

theorem claim_getTextRange_correct_witness :
    (mkCap 0).Wf ∧ (mkCap 0).length ≤ 2 ∧ (mkCap 0).getTextRange 2 5 = [] :=
  ⟨by decide, by decide,
    (claim_getTextRange_correct (mkCap 0) (by decide) 2 5).1 (by decide)⟩

/-- C5: for every valid offset (`offset ≤ length()`) and every text,
`insert(offset, t)` followed by `erase(offset, len(t))` restores the exact
previous `getText()` value. -/
theorem claim_insert_erase_roundtrip (b : GapBuffer) (hw : b.Wf) (offset : Nat)
    (t : List Char) (hoff : offset ≤ b.length) :
    ((b.insert offset t).erase offset t.length).getText = b.getText := by
  by_cases ht : t = []
  · subst ht
    rw [insert_nil, erase_noop _ _ _ (Or.inr List.length_nil)]
  · obtain ⟨hw1, g2, g3, _⟩ := insert_spec b hw offset t ht
    have hco : min offset b.length = offset := by omega
    rw [hco] at g2
    have htl : 1 ≤ t.length := by
      cases t
      · exact absurd rfl ht
      · simp
    have ho1 : offset < (b.insert offset t).length := by
      rw [g3]
      omega
    have hl1 : t.length ≠ 0 := by omega
    obtain ⟨_, e2, _, _⟩ := erase_spec _ hw1 offset t.length ho1 hl1
    have hmin : min t.length ((b.insert offset t).length - offset) = t.length := by
      rw [g3]
      omega
    rw [hmin, g2] at e2
    rw [e2]
    have hGlen : b.getText.length = b.length := getText_length b hw
    have hA : (b.getText.take offset).length = offset := by
      simp
      omega
    have h1 : (b.getText.take offset ++ t ++ b.getText.drop offset).take offset =
        b.getText.take offset := by
      rw [List.take_append_of_le_length (by simp; omega),
        List.take_append_of_le_length (by omega), List.take_take, Nat.min_self]
    have h2 : (b.getText.take offset ++ t ++ b.getText.drop offset).drop
        (offset + t.length) = b.getText.drop offset := by
      rw [List.append_assoc]
      calc (b.getText.take offset ++ (t ++ b.getText.drop offset)).drop
            (offset + t.length)
          = (b.getText.take offset ++ (t ++ b.getText.drop offset)).drop
              ((b.getText.take offset).length + t.length) := by rw [hA]
        _ = (t ++ b.getText.drop offset).drop t.length := List.drop_append _
        _ = b.getText.drop offset := List.drop_left _ _
    rw [h1, h2, List.take_append_drop]

theorem claim_insert_erase_roundtrip_witness :
    (mkCap 0).Wf ∧ (0 : Nat) ≤ (mkCap 0).length ∧
    (((mkCap 0).insert 0 ['Z']).erase 0 (['Z'] : List Char).length).getText =
      (mkCap 0).getText :=
  ⟨by decide, by decide,
    claim_insert_erase_roundtrip (mkCap 0) (by decide) 0 ['Z'] (by decide)⟩

/-- C6: from empty content with no pending patches, the three forward
single-byte insertions `insert(0,"A"); insert(1,"B"); insert(2,"C")` leave
exactly one pending patch, and flushing returns exactly the single patch
`{start 0, removedLength 0, insertedText "ABC"}`. -/
theorem claim_coalesce_forward (b : GapBuffer) (hw : b.Wf) (hlen : b.length = 0)
    (hp : b.pendingPatches_ = []) :
    (((b.insert 0 ['A']).insert 1 ['B']).insert 2 ['C']).pendingPatches_.length = 1 ∧
    ((((b.insert 0 ['A']).insert 1 ['B']).insert 2 ['C']).flushPatches).1 =
      [⟨0, 0, ['A', 'B', 'C']⟩] := by
  obtain ⟨w1, _, l1, p1⟩ := insert_spec b hw 0 ['A'] (by decide)
  rw [hlen] at l1
  rw [hp, hlen] at p1
  have hp1 : (b.insert 0 ['A']).pendingPatches_ = [⟨0, 0, ['A']⟩] := by
    rw [p1]
    decide
  obtain ⟨w2, _, l2, p2⟩ := insert_spec _ w1 1 ['B'] (by decide)
  rw [l1] at l2 p2
  rw [hp1] at p2
  have hp2 : ((b.insert 0 ['A']).insert 1 ['B']).pendingPatches_ =
      [⟨0, 0, ['A', 'B']⟩] := by
    rw [p2]
    decide
  obtain ⟨w3, _, l3, p3⟩ := insert_spec _ w2 2 ['C'] (by decide)
  rw [l2] at p3
  rw [hp2] at p3
  have hp3 : (((b.insert 0 ['A']).insert 1 ['B']).insert 2 ['C']).pendingPatches_ =
      [⟨0, 0, ['A', 'B', 'C']⟩] := by
    rw [p3]
    decide
  rw [flushPatches_fst, hp3]
  exact ⟨rfl, rfl⟩

theorem claim_coalesce_forward_witness :
    (mkCap 0).Wf ∧ (mkCap 0).length = 0 ∧ (mkCap 0).pendingPatches_ = [] ∧
    (((((mkCap 0).insert 0 ['A']).insert 1 ['B']).insert 2 ['C']).flushPatches).1 =
      [⟨0, 0, ['A', 'B', 'C']⟩] :=
  ⟨by decide, by decide, rfl,
    (claim_coalesce_forward (mkCap 0) (by decide) (by decide) rfl).2⟩

/-- C7 counterexample: the claim fails on empty initial content.  With the
pending list empty and the content empty, `insert(0,"A")` then `insert(2,"B")`
(`2 > len "A"`) clamps the second offset to 1, which is adjacent to the first
patch, so the two insertions coalesce into a single flushed patch — not more
than one. -/
theorem claim_nonadjacent_counterexample :
    (mkCap 0).Wf ∧ (mkCap 0).pendingPatches_ = [] ∧
    (['A'] : List Char) ≠ [] ∧ (['B'] : List Char) ≠ [] ∧
    (['A'] : List Char).length < 2 ∧
    ¬(1 < ((((mkCap 0).insert 0 ['A']).insert 2 ['B']).flushPatches).1.length) := by
  refine ⟨by decide, rfl, by decide, by decide, by decide, ?_⟩
  obtain ⟨w1, _, l1, p1⟩ := insert_spec (mkCap 0) (by decide) 0 ['A'] (by decide)
  have hlen0 : (mkCap 0).length = 0 := by decide
  rw [hlen0] at l1
  rw [hlen0] at p1
  have hp1 : ((mkCap 0).insert 0 ['A']).pendingPatches_ = [⟨0, 0, ['A']⟩] := by
    rw [p1]
    decide
  obtain ⟨_, _, _, p2⟩ := insert_spec _ w1 2 ['B'] (by decide)
  rw [l1] at p2
  rw [hp1] at p2
  have hp2 : (((mkCap 0).insert 0 ['A']).insert 2 ['B']).pendingPatches_ =
      [⟨0, 0, ['A', 'B']⟩] := by
    rw [p2]
    decide
  rw [flushPatches_fst, hp2]
  decide

/-- C7 amended: with a NONEMPTY initial content (`1 ≤ length`) and an empty
pending-patch list, `insert(0, t1)` followed by `insert(k, t2)` with
`k > len t1` (both texts nonempty) produces more than one flushed patch. -/
theorem claim_nonadjacent_amended (b : GapBuffer) (hw : b.Wf)
    (hp : b.pendingPatches_ = []) (hL : 1 ≤ b.length)
    (t1 t2 : List Char) (h1 : t1 ≠ []) (h2 : t2 ≠ [])
    (k : Nat) (hk : t1.length < k) :
    1 < (((b.insert 0 t1).insert k t2).flushPatches).1.length := by
  obtain ⟨w1, _, l1, p1⟩ := insert_spec b hw 0 t1 h1
  rw [hp, Nat.zero_min] at p1
  have hp1 : (b.insert 0 t1).pendingPatches_ = [⟨0, 0, t1⟩] := by
    rw [p1, recordPatch]
    simp
  obtain ⟨_, _, _, p2⟩ := insert_spec _ w1 k t2 h2
  rw [l1, hp1] at p2
  have hc2 : t1.length < min k (b.length + t1.length) := by omega
  have hp2 : ((b.insert 0 t1).insert k t2).pendingPatches_ =
      [⟨0, 0, t1⟩, ⟨min k (b.length + t1.length), 0, t2⟩] := by
    rw [p2, recordPatch]
    simp only [List.getLast?_singleton]
    try dsimp only
    rw [if_neg (by simp; omega), if_neg (by simp [h2])]
    rfl
  rw [flushPatches_fst, hp2]
  simp

theorem claim_nonadjacent_amended_witness :
    (⟨['x'], 1, 1, []⟩ : GapBuffer).Wf ∧
    (⟨['x'], 1, 1, []⟩ : GapBuffer).pendingPatches_ = [] ∧
    1 ≤ (⟨['x'], 1, 1, []⟩ : GapBuffer).length ∧
    (['A'] : List Char) ≠ [] ∧ (['B'] : List Char) ≠ [] ∧
    (['A'] : List Char).length < 5 ∧
    1 < (((GapBuffer.insert ⟨['x'], 1, 1, []⟩ 0 ['A']).insert 5 ['B']).flushPatches).1.length :=
  ⟨by decide, rfl, by decide, by decide, by decide, by decide,
    claim_nonadjacent_amended ⟨['x'], 1, 1, []⟩ (by decide) rfl (by decide)
      ['A'] ['B'] (by decide) (by decide) 5 (by decide)⟩

/-- C8: for a buffer loaded with "Line 1\nLine 2\nLine 3", every line below
`lineCount()` round-trips: `lineFromOffset(offsetFromLine(line, 0)) = line`. -/
theorem claim_line_roundtrip (b : GapBuffer) (line : Nat)
    (hline : line < (b.loadFromString "Line 1\nLine 2\nLine 3".toList).lineCount) :
    (b.loadFromString "Line 1\nLine 2\nLine 3".toList).lineFromOffset
      ((b.loadFromString "Line 1\nLine 2\nLine 3".toList).offsetFromLine line 0) =
      line := by
  rw [lineCount_load] at hline
  have h3 : line < 3 := lt_of_lt_of_eq hline (by decide)
  rw [offsetFromLine_load, lineFromOffset_load]
  interval_cases line <;> decide

theorem claim_line_roundtrip_witness :
    0 < ((mkCap 0).loadFromString "Line 1\nLine 2\nLine 3".toList).lineCount ∧
    ((mkCap 0).loadFromString "Line 1\nLine 2\nLine 3".toList).lineFromOffset
      (((mkCap 0).loadFromString "Line 1\nLine 2\nLine 3".toList).offsetFromLine 0 0) =
      0 :=
  ⟨by rw [lineCount_load]; decide,
    claim_line_roundtrip (mkCap 0) 0 (by rw [lineCount_load]; decide)⟩

/-- C9: the structural invariant `0 ≤ gapStart_ ≤ gapEnd_ ≤ buffer_.size()`
holds after construction and is preserved by every state-producing public
operation — loadFromString, clear, insert, erase, flushPatches, copy — and
holds for the moved-from source of a move. -/
theorem claim_gap_invariant :
    (∀ c, (mkCap c).Wf) ∧
    (∀ b t, (GapBuffer.loadFromString b t).Wf) ∧
    (∀ b : GapBuffer, b.Wf → b.clear.Wf) ∧
    (∀ b : GapBuffer, b.Wf → ∀ offset text, (b.insert offset text).Wf) ∧
    (∀ b : GapBuffer, b.Wf → ∀ offset len, (b.erase offset len).Wf) ∧
    (∀ b : GapBuffer, b.Wf → (b.flushPatches).2.Wf) ∧
    (∀ b : GapBuffer, b.Wf → b.copy.Wf) ∧
    movedFromState.Wf := by
  refine ⟨?_, ?_, ?_, ?_, ?_, ?_, ?_, ?_⟩
  · intro c
    constructor
    · exact Nat.zero_le _
    · simp [mkCap]
  · exact loadFromString_wf
  · intro b _
    exact clear_wf b
  · intro b hw offset text
    by_cases ht : text = []
    · rw [ht, insert_nil]
      exact hw
    · exact (insert_spec b hw offset text ht).1
  · intro b hw offset len
    by_cases h : b.length ≤ offset ∨ len = 0
    · rw [erase_noop b offset len h]
      exact hw
    · push_neg at h
      exact (erase_spec b hw offset len h.1 h.2).1
  · exact fun b hw => flushPatches_snd_wf b hw
  · exact fun b hw => hw
  · exact ⟨Nat.le_refl 0, Nat.le_refl 0⟩

theorem claim_gap_invariant_witness :
    (mkCap 2).Wf ∧ ((mkCap 2).insert 0 ['q']).Wf :=
  ⟨by decide, claim_gap_invariant.2.2.2.1 (mkCap 2) (by decide) 0 ['q']⟩

/-- C10: every patch held in the pending list is pure — a pure insertion
(`removedLength = 0`, nonempty `insertedText`, recorded by insert) or a pure
deletion (empty `insertedText`, `removedLength ≥ 1`, recorded by erase); a
mixed patch never occurs and coalescing preserves purity.  Stated as an
inductive characterisation: the initial states have pure (empty) pending
lists and every operation preserves purity of the whole list, hence so does
every flush. -/
theorem claim_patches_pure :
    (∀ c, ∀ p ∈ (mkCap c).pendingPatches_, PurePatch p) ∧
    (∀ b t, ∀ p ∈ (GapBuffer.loadFromString b t).pendingPatches_, PurePatch p) ∧
    (∀ b : GapBuffer, ∀ p ∈ b.clear.pendingPatches_, PurePatch p) ∧
    (∀ b : GapBuffer, (∀ p ∈ b.pendingPatches_, PurePatch p) →
      ∀ offset text, ∀ p ∈ (b.insert offset text).pendingPatches_, PurePatch p) ∧
    (∀ b : GapBuffer, (∀ p ∈ b.pendingPatches_, PurePatch p) →
      ∀ offset len, ∀ p ∈ (b.erase offset len).pendingPatches_, PurePatch p) ∧
    (∀ b : GapBuffer, (∀ p ∈ b.pendingPatches_, PurePatch p) →
      ∀ p ∈ (b.flushPatches).1, PurePatch p) := by
  refine ⟨?_, ?_, ?_, ?_, ?_, ?_⟩
  · intro c p hp
    simp [mkCap] at hp
  · intro b t p hp
    rw [loadFromString_pendingPatches] at hp
    simp at hp
  · intro b p hp
    rw [clear_pendingPatches] at hp
    simp at hp
  · intro b hps offset text p hp
    by_cases ht : text = []
    · rw [ht, insert_nil] at hp
      exact hps p hp
    · rw [insert_pendingPatches b offset text ht] at hp
      exact recordPatch_pure _ _ _ _ hps (Or.inl ⟨rfl, ht⟩) p hp
  · intro b hps offset len p hp
    by_cases h : b.length ≤ offset ∨ len = 0
    · rw [erase_noop b offset len h] at hp
      exact hps p hp
    · push_neg at h
      rw [erase_pendingPatches b offset len h.1 h.2] at hp
      refine recordPatch_pure _ _ _ _ hps (Or.inr ⟨rfl, ?_⟩) p hp
      have h1 := h.1
      have h2 := h.2
      omega
  · intro b hps p hp
    rw [flushPatches_fst] at hp
    exact hps p hp

theorem claim_patches_pure_witness :
    (∀ p ∈ (⟨['a'], 1, 1, []⟩ : GapBuffer).pendingPatches_, PurePatch p) ∧
    (∀ p ∈ (GapBuffer.insert ⟨['a'], 1, 1, []⟩ 1 ['b']).pendingPatches_, PurePatch p) :=
  ⟨by simp, claim_patches_pure.2.2.2.1 ⟨['a'], 1, 1, []⟩ (by simp) 1 ['b']⟩

end GapBuffer

end MarkdownAssistant
